import Mathlib

/-!
# Verification of a byte-machine (brainfuck) interpreter

Shallow embedding of `src/main.rs`: the instruction set, the `Program`
decoder with its lazy bracket-matching scans, the bounded two-sided `Tape`,
and the step-budgeted `Runner`.  Machine integers (`usize`, `u8`) are
modelled as `Nat` with explicit `% 2 ^ 64` / `% 256` where wraparound can
occur; Rust operations that can panic (the `unwrap`s inside the tape
accessors) return `Option`; fallible operations return `Except`.
-/

/-- The eight instructions (`enum Instruction` in `main.rs`). -/
inductive Instruction where
  | left
  | right
  | increment
  | decrement
  | output
  | input
  | beginLoop
  | endLoop
deriving DecidableEq

/-- `Instruction::from_char`: the eight meaningful characters; everything
else is dropped by the parser. -/
def Instruction.from_char (a : Char) : Option Instruction :=
  match a with
  | '<' => some .left
  | '>' => some .right
  | '+' => some .increment
  | '-' => some .decrement
  | '.' => some .output
  | ',' => some .input
  | '[' => some .beginLoop
  | ']' => some .endLoop
  | _ => none

/-- `struct Program { pc: usize, source: Vec<Instruction> }`. -/
structure Program where
  pc : Nat
  source : List Instruction
deriving DecidableEq

/-- `pub struct MismatchedParen { pub message: &'static str }`. -/
structure MismatchedParen where
  message : String
deriving DecidableEq

/-- `enum ProgramStepResult { Step(Instruction), Terminate }`. -/
inductive ProgramStepResult where
  | step (i : Instruction)
  | terminate
deriving DecidableEq

/-- `Program::parse_source`: keep the meaningful characters, in order. -/
def Program.parse_source (code : String) : Program :=
  { source := code.toList.filterMap Instruction.from_char, pc := 0 }

/-- The forward scan of `execute_command`'s `BeginLoop`/zero branch:
`for (i, inst) in self.source[self.pc..].iter().enumerate()`, with a
`usize` nesting counter (`+= 1` on `[`, `-= 1` on `]`, arithmetic mod
`2 ^ 64` as in release builds); returns the offset `i` at which the counter
hits zero, or `none` when the slice is exhausted. -/
def scanClose : List Instruction → Nat → Nat → Option Nat
  | [], _, _ => none
  | inst :: rest, i, counter =>
    let counter' :=
      match inst with
      | .beginLoop => (counter + 1) % 2 ^ 64
      | .endLoop => (counter + (2 ^ 64 - 1)) % 2 ^ 64
      | _ => counter
    if counter' = 0 then some i else scanClose rest (i + 1) counter'

/-- The backward scan of `execute_command`'s `EndLoop`/nonzero branch:
`for (i, inst) in self.source[0..=self.pc].iter().enumerate().rev()`.
The argument list is the reversed prefix `source[0..=pc]`, `i` counts down
from `pc`; the `usize` counter gets `+= 1` on `]`, `-= 1` on `[`. -/
def scanOpen : List Instruction → Nat → Nat → Option Nat
  | [], _, _ => none
  | inst :: rest, i, counter =>
    let counter' :=
      match inst with
      | .endLoop => (counter + 1) % 2 ^ 64
      | .beginLoop => (counter + (2 ^ 64 - 1)) % 2 ^ 64
      | _ => counter
    if counter' = 0 then some i else scanOpen rest (i - 1) counter'

/-- `Program::execute_command`.  Returns the mutated program paired with
the step result; `Err(MismatchedParen)` leaves the counter untouched.
Note the source's `EndLoop`/zero branch really returns
`Step(Instruction::BeginLoop)`. -/
def Program.execute_command (p : Program) (cell_value : Nat) :
    Except MismatchedParen (Program × ProgramStepResult) :=
  if h : p.source.length ≤ p.pc then .ok (p, .terminate)
  else
    match p.source.get ⟨p.pc, Nat.lt_of_not_le h⟩ with
    | .beginLoop =>
      if cell_value = 0 then
        match scanClose (p.source.drop p.pc) 0 0 with
        | some i => .ok ({ p with pc := p.pc + i }, .step .beginLoop)
        | none => .error ⟨"found no matching closing parenthesis"⟩
      else
        .ok ({ p with pc := p.pc + 1 }, .step .beginLoop)
    | .endLoop =>
      if cell_value ≠ 0 then
        match scanOpen ((p.source.take (p.pc + 1)).reverse) p.pc 0 with
        | some i => .ok ({ p with pc := i }, .step .endLoop)
        | none => .error ⟨"found no matching opening parenthesis"⟩
      else
        .ok ({ p with pc := p.pc + 1 }, .step .beginLoop)
    | other => .ok ({ p with pc := p.pc + 1 }, .step other)

/-- `struct MaxSizeExceeded;`. -/
inductive MaxSizeExceeded where
  | mk
deriving DecidableEq

/-- `struct Tape { left: Vec<u8>, right: Vec<u8>, pointer: i64, max_size: usize }`.
Cells are bytes, modelled as `Nat` kept below 256 by the wrapping ops. -/
structure Tape where
  left : List Nat
  right : List Nat
  pointer : Int
  max_size : Nat
deriving DecidableEq

/-- `Tape::new`. -/
def Tape.new (max_size : Nat) : Tape :=
  { left := [], right := [0], pointer := 0, max_size := max_size }

/-- `Tape::val`: the current cell.  The source's `.get(p).unwrap()` panics
when the pointer is outside the allocated cells; that panic is `none`. -/
def Tape.val (t : Tape) : Option Nat :=
  if t.pointer < 0 then
    t.left.get? (t.pointer + 1).natAbs
  else
    t.right.get? t.pointer.toNat

/-- `Tape::write` (`*self.val_mut() = c`); `none` is the `unwrap` panic of
`val_mut` on an unallocated pointer. -/
def Tape.write (t : Tape) (c : Nat) : Option Tape :=
  if t.pointer < 0 then
    let p := (t.pointer + 1).natAbs
    if p < t.left.length then some { t with left := t.left.set p c } else none
  else
    let p := t.pointer.toNat
    if p < t.right.length then some { t with right := t.right.set p c } else none

/-- `Tape::read` (`*self.val()`). -/
def Tape.read (t : Tape) : Option Nat :=
  t.val

/-- `Tape::increment`: `*self.val_mut() = self.val().wrapping_add(1)`. -/
def Tape.increment (t : Tape) : Option Tape :=
  t.val.bind fun v => t.write ((v + 1) % 256)

/-- `Tape::decrement`: `*self.val_mut() = self.val().wrapping_sub(1)`. -/
def Tape.decrement (t : Tape) : Option Tape :=
  t.val.bind fun v => t.write ((v + 255) % 256)

/-- `Tape::move_left`.  Grows `left` by one zero cell when the target
position was never visited, unless that would exceed `max_size`. -/
def Tape.move_left (t : Tape) : Except MaxSizeExceeded Tape :=
  if t.pointer ≤ 0 ∧ t.left.length ≤ t.pointer.natAbs then
    if t.left.length + t.right.length + 1 > t.max_size then
      .error .mk
    else
      .ok { t with left := t.left ++ [0], pointer := t.pointer - 1 }
  else
    .ok { t with pointer := t.pointer - 1 }

/-- `Tape::move_right`.  The source computes `self.right.len() - 1` in
`usize`; `right` is never empty in any reachable state (it starts as
`vec![0]` and is only pushed to), so plain `Nat` subtraction is faithful. -/
def Tape.move_right (t : Tape) : Except MaxSizeExceeded Tape :=
  if 0 ≤ t.pointer ∧ t.right.length - 1 ≤ t.pointer.toNat then
    if t.right.length + t.left.length + 1 > t.max_size then
      .error .mk
    else
      .ok { t with right := t.right ++ [0], pointer := t.pointer + 1 }
  else
    .ok { t with pointer := t.pointer + 1 }

/-- The interpreter-level error type (`Box<dyn Error>` in the Rust carries
one of the three concrete errors). -/
inductive RunError where
  | paren (e : MismatchedParen)
  | size (e : MaxSizeExceeded)
  | ioFailure
deriving DecidableEq

/-- The two I/O capability functions the Runner is constructed with,
modelled as state transformers over an explicit external world `W`
(the Rust closures read and mutate process-wide streams). -/
structure IoCaps (W : Type) where
  input : W → Except Unit (Nat × W)
  output : Nat → W → Except Unit W

/-- `struct Runner` minus the two capability closures (those are passed to
each operation as an `IoCaps` parameter). -/
structure Runner where
  tape : Tape
  program : Program
  step_count : Nat
  next_halt : Option Nat
deriving DecidableEq

/-- `Runner::new`. -/
def Runner.new (max_size : Nat) (code : String) : Runner :=
  { tape := Tape.new max_size
    program := Program.parse_source code
    step_count := 0
    next_halt := none }

/-- Outcome of `Runner::step`, carrying the mutated runner and world.
`panicked` models the `unwrap` panics inside the tape accessors (never
reached from a well-formed runner). -/
inductive StepOut (W : Type) where
  | panicked
  | fail (s : Runner) (w : W) (e : RunError)
  | step (s : Runner) (w : W) (i : Instruction)
  | terminate (s : Runner) (w : W)

/-- `Runner::step`: read the cell, decode-and-advance, apply the real
operation if any, then bump the total step counter. -/
def Runner.step {W : Type} (caps : IoCaps W) (s : Runner) (w : W) : StepOut W :=
  match s.tape.val with
  | none => .panicked
  | some cell =>
    match s.program.execute_command cell with
    | .error e => .fail s w (.paren e)
    | .ok (p', .terminate) => .terminate { s with program := p' } w
    | .ok (p', .step inst) =>
      match inst with
      | .left =>
        match { s with program := p' }.tape.move_left with
        | .error e => .fail { s with program := p' } w (.size e)
        | .ok t' =>
          .step { s with program := p', tape := t', step_count := s.step_count + 1 } w inst
      | .right =>
        match { s with program := p' }.tape.move_right with
        | .error e => .fail { s with program := p' } w (.size e)
        | .ok t' =>
          .step { s with program := p', tape := t', step_count := s.step_count + 1 } w inst
      | .increment =>
        match { s with program := p' }.tape.increment with
        | none => .panicked
        | some t' =>
          .step { s with program := p', tape := t', step_count := s.step_count + 1 } w inst
      | .decrement =>
        match { s with program := p' }.tape.decrement with
        | none => .panicked
        | some t' =>
          .step { s with program := p', tape := t', step_count := s.step_count + 1 } w inst
      | .output =>
        match { s with program := p' }.tape.read with
        | none => .panicked
        | some c2 =>
          match caps.output c2 w with
          | .error _ => .fail { s with program := p' } w .ioFailure
          | .ok w' =>
            .step { s with program := p', step_count := s.step_count + 1 } w' inst
      | .input =>
        match caps.input w with
        | .error _ => .fail { s with program := p' } w .ioFailure
        | .ok (b, w') =>
          match { s with program := p' }.tape.write b with
          | none => .panicked
          | some t' =>
            .step { s with program := p', tape := t', step_count := s.step_count + 1 } w' inst
      | .beginLoop =>
        .step { s with program := p', step_count := s.step_count + 1 } w inst
      | .endLoop =>
        .step { s with program := p', step_count := s.step_count + 1 } w inst

/-- Outcome of `Runner::run` / `Runner::run_for`, carrying the final runner
and world.  `fuelOut` is a modelling artifact: the Rust loop has no fuel,
ours consumes one unit per iteration. -/
inductive RunOut (W : Type) where
  | panicked
  | fuelOut
  | fail (s : Runner) (w : W) (n : Nat) (e : RunError)
  | stepCount (s : Runner) (w : W) (n : Nat)
  | terminate (s : Runner) (w : W)

/-- The halt guard at the top of `Runner::run`'s loop:
`if let Some(halt_point) = self.next_halt { if self.step_count >= halt_point { ... } }`. -/
def Runner.haltCheck (s : Runner) : Bool :=
  match s.next_halt with
  | some halt_point => decide (halt_point ≤ s.step_count)
  | none => false

/-- The loop of `Runner::run`; `j` is the local `iteration_steps`. -/
def Runner.runAux {W : Type} (caps : IoCaps W) : Nat → Runner → W → Nat → RunOut W
  | 0, _, _, _ => .fuelOut
  | fuel + 1, s, w, j =>
    if Runner.haltCheck s then
      .stepCount s w j
    else
      match Runner.step caps s w with
      | .panicked => .panicked
      | .fail s' w' e => .fail s' w' j e
      | .terminate s' w' => .terminate s' w'
      | .step s' w' _ => Runner.runAux caps fuel s' w' (j + 1)

/-- `Runner::run`. -/
def Runner.run {W : Type} (caps : IoCaps W) (fuel : Nat) (s : Runner) (w : W) : RunOut W :=
  Runner.runAux caps fuel s w 0

/-- `Runner::run_for`: set `next_halt`, delegate to `run`, and clear
`next_halt` — but only on the `Ok` path: the `?` on `self.run()` returns
early on failure, leaving the threshold set. -/
def Runner.run_for {W : Type} (caps : IoCaps W) (fuel : Nat) (steps : Nat)
    (s : Runner) (w : W) : RunOut W :=
  match Runner.run caps fuel { s with next_halt := some (s.step_count + steps) } w with
  | .stepCount s' w' n => .stepCount { s' with next_halt := none } w' n
  | .terminate s' w' => .terminate { s' with next_halt := none } w'
  | other => other

/-- The resumption loop of `main`: call `run_for` with a fixed quantum
until anything other than a `StepCount` pause comes back.  `m` bounds the
number of calls (fuel for the outer loop). -/
def Runner.run_for_loop {W : Type} (caps : IoCaps W) (fuel k : Nat) :
    Nat → Runner → W → RunOut W
  | 0, _, _ => .fuelOut
  | m + 1, s, w =>
    match Runner.run_for caps fuel k s w with
    | .stepCount s' w' _ => Runner.run_for_loop caps fuel k m s' w'
    | other => other

/-- `n` composed successful steps (used to state that the step counts the
runner reports match the real step trace). -/
def Runner.stepN {W : Type} (caps : IoCaps W) : Nat → Runner → W → Option (Runner × W)
  | 0, s, w => some (s, w)
  | n + 1, s, w =>
    match Runner.step caps s w with
    | .step s' w' _ => Runner.stepN caps n s' w'
    | _ => none

/-- The input-capability closure built in `main`: a successful read yields
its byte, `ErrorKind::UnexpectedEof` is normalized to `Ok(0)`, any other
I/O error propagates. -/
inductive ReadOutcome where
  | bytes (b : Nat)
  | unexpectedEof
  | otherErr
deriving DecidableEq

/-- The body of `main`'s input closure, as a function of what
`stdin().read_exact` produced. -/
def stdin_capability (r : ReadOutcome) : Except Unit Nat :=
  match r with
  | .bytes b => .ok b
  | .unexpectedEof => .ok 0
  | .otherErr => .error ()

/-! ## Tape lemmas -/

lemma Tape.write_of_val {t : Tape} {v : Nat} (h : t.val = some v) (c : Nat) :
    ∃ t', t.write c = some t' ∧ t'.val = some c ∧
      t'.left.length = t.left.length ∧ t'.right.length = t.right.length ∧
      t'.pointer = t.pointer ∧ t'.max_size = t.max_size := by
  unfold Tape.val at h
  unfold Tape.write
  by_cases hp : t.pointer < 0
  · simp only [hp, if_true] at h ⊢
    have hlt : (t.pointer + 1).natAbs < t.left.length := by
      rw [List.get?_eq_getElem?] at h
      exact (List.getElem?_eq_some.mp h).1
    refine ⟨{ t with left := t.left.set (t.pointer + 1).natAbs c },
      by simp [hlt], ?_, by simp, by simp, rfl, rfl⟩
    simp only [Tape.val, hp, if_true, List.get?_eq_getElem?]
    exact List.getElem?_set_eq_of_lt c hlt
  · simp only [hp, if_false] at h ⊢
    have hlt : t.pointer.toNat < t.right.length := by
      rw [List.get?_eq_getElem?] at h
      exact (List.getElem?_eq_some.mp h).1
    refine ⟨{ t with right := t.right.set t.pointer.toNat c },
      by simp [hlt], ?_, by simp, by simp, rfl, rfl⟩
    simp only [Tape.val, hp, if_false, List.get?_eq_getElem?]
    exact List.getElem?_set_eq_of_lt c hlt

/-- C8: on any tape state whose pointer addresses an allocated cell
(holding value `v`), `increment` and `decrement` succeed and replace the
cell by `(v + 1) % 256` resp. `(v + 255) % 256`; in particular a cell
holding 255 increments to 0 and a cell holding 0 decrements to 255. -/
theorem tape_increment_decrement_wraparound (t : Tape) (v : Nat)
    (h : t.val = some v) :
    (∃ t₁, t.increment = some t₁ ∧ t₁.val = some ((v + 1) % 256)) ∧
    (∃ t₂, t.decrement = some t₂ ∧ t₂.val = some ((v + 255) % 256)) ∧
    (v = 255 → ∀ t₁, t.increment = some t₁ → t₁.val = some 0) ∧
    (v = 0 → ∀ t₂, t.decrement = some t₂ → t₂.val = some 255) := by
  obtain ⟨t₁, hw₁, hv₁, -⟩ := Tape.write_of_val h ((v + 1) % 256)
  obtain ⟨t₂, hw₂, hv₂, -⟩ := Tape.write_of_val h ((v + 255) % 256)
  have hinc : t.increment = some t₁ := by
    simp [Tape.increment, h, hw₁]
  have hdec : t.decrement = some t₂ := by
    simp [Tape.decrement, h, hw₂]
  refine ⟨⟨t₁, hinc, hv₁⟩, ⟨t₂, hdec, hv₂⟩, ?_, ?_⟩
  · rintro rfl t₁' ht₁'
    rw [hinc] at ht₁'
    cases ht₁'
    simpa using hv₁
  · rintro rfl t₂' ht₂'
    rw [hdec] at ht₂'
    cases ht₂'
    simpa using hv₂

/-- Closed instance of `tape_increment_decrement_wraparound` on the fresh
one-cell tape. -/
theorem tape_increment_decrement_wraparound_witness :
    (Tape.new 5).val = some 0 ∧
    ((∃ t₁, (Tape.new 5).increment = some t₁ ∧ t₁.val = some ((0 + 1) % 256)) ∧
     (∃ t₂, (Tape.new 5).decrement = some t₂ ∧ t₂.val = some ((0 + 255) % 256)) ∧
     (0 = 255 → ∀ t₁, (Tape.new 5).increment = some t₁ → t₁.val = some 0) ∧
     (0 = 0 → ∀ t₂, (Tape.new 5).decrement = some t₂ → t₂.val = some 255)) :=
  ⟨by decide, tape_increment_decrement_wraparound (Tape.new 5) 0 (by decide)⟩

/-- The tape size invariant of the spec:
`left.len() + right.len() <= max_size`. -/
def Tape.sizeOk (t : Tape) : Prop :=
  t.left.length + t.right.length ≤ t.max_size

instance (t : Tape) : Decidable t.sizeOk := by
  unfold Tape.sizeOk
  infer_instance

lemma Tape.write_lengths : ∀ (t : Tape) (c : Nat) (t' : Tape), t.write c = some t' →
    t'.left.length = t.left.length ∧ t'.right.length = t.right.length ∧
    t'.max_size = t.max_size ∧ t'.pointer = t.pointer := by
  intro t c t' h
  unfold Tape.write at h
  by_cases hp : t.pointer < 0
  · rw [if_pos hp] at h
    dsimp only at h
    split at h
    · injection h with h
      subst h
      simp
    · exact Option.noConfusion h
  · rw [if_neg hp] at h
    dsimp only at h
    split at h
    · injection h with h
      subst h
      simp
    · exact Option.noConfusion h

lemma Tape.increment_lengths : ∀ t t' : Tape, t.increment = some t' →
    t'.left.length = t.left.length ∧ t'.right.length = t.right.length ∧
    t'.max_size = t.max_size ∧ t'.pointer = t.pointer := by
  intro t t' h
  unfold Tape.increment at h
  cases hv : t.val with
  | none => rw [hv] at h; exact Option.noConfusion h
  | some v =>
    rw [hv] at h
    simp only [Option.some_bind] at h
    exact Tape.write_lengths t _ t' h

lemma Tape.decrement_lengths : ∀ t t' : Tape, t.decrement = some t' →
    t'.left.length = t.left.length ∧ t'.right.length = t.right.length ∧
    t'.max_size = t.max_size ∧ t'.pointer = t.pointer := by
  intro t t' h
  unfold Tape.decrement at h
  cases hv : t.val with
  | none => rw [hv] at h; exact Option.noConfusion h
  | some v =>
    rw [hv] at h
    simp only [Option.some_bind] at h
    exact Tape.write_lengths t _ t' h

/-- C5: with a positive `max_size` the size invariant holds after
`Tape::new`; every tape operation preserves it; and a move whose required
growth would exceed `max_size` fails with `MaxSizeExceeded` exactly when
the source's guard says so, instead of growing. -/
theorem tape_size_invariant :
    (∀ ms : Nat, 1 ≤ ms → (Tape.new ms).sizeOk) ∧
    (∀ (t : Tape) (c : Nat) (t' : Tape), t.sizeOk → t.write c = some t' → t'.sizeOk) ∧
    (∀ t t' : Tape, t.sizeOk → t.increment = some t' → t'.sizeOk) ∧
    (∀ t t' : Tape, t.sizeOk → t.decrement = some t' → t'.sizeOk) ∧
    (∀ t t' : Tape, t.move_left = .ok t' → t.sizeOk → t'.sizeOk) ∧
    (∀ t t' : Tape, t.move_right = .ok t' → t.sizeOk → t'.sizeOk) ∧
    (∀ t : Tape, t.move_left = .error .mk ↔
      (t.pointer ≤ 0 ∧ t.left.length ≤ t.pointer.natAbs) ∧
      t.left.length + t.right.length + 1 > t.max_size) ∧
    (∀ t : Tape, t.move_right = .error .mk ↔
      (0 ≤ t.pointer ∧ t.right.length - 1 ≤ t.pointer.toNat) ∧
      t.right.length + t.left.length + 1 > t.max_size) := by
  have hwrite : ∀ (t : Tape) (c : Nat) (t' : Tape), t.write c = some t' →
      t'.left.length = t.left.length ∧ t'.right.length = t.right.length ∧
      t'.max_size = t.max_size := by
    intro t c t' h
    obtain ⟨h1, h2, h3, -⟩ := Tape.write_lengths t c t' h
    exact ⟨h1, h2, h3⟩
  refine ⟨?_, ?_, ?_, ?_, ?_, ?_, ?_, ?_⟩
  · intro ms hms
    simpa [Tape.new, Tape.sizeOk] using hms
  · intro t c t' hok hw
    obtain ⟨h1, h2, h3⟩ := hwrite t c t' hw
    unfold Tape.sizeOk at hok ⊢
    omega
  · intro t t' hok hw
    unfold Tape.increment at hw
    cases hv : t.val with
    | none => rw [hv] at hw; simp at hw
    | some v =>
      rw [hv] at hw
      simp only [Option.some_bind] at hw
      obtain ⟨h1, h2, h3⟩ := hwrite t _ t' hw
      unfold Tape.sizeOk at hok ⊢
      omega
  · intro t t' hok hw
    unfold Tape.decrement at hw
    cases hv : t.val with
    | none => rw [hv] at hw; simp at hw
    | some v =>
      rw [hv] at hw
      simp only [Option.some_bind] at hw
      obtain ⟨h1, h2, h3⟩ := hwrite t _ t' hw
      unfold Tape.sizeOk at hok ⊢
      omega
  · intro t t' hm hok
    unfold Tape.move_left at hm
    unfold Tape.sizeOk at hok ⊢
    split at hm
    · split at hm
      · simp at hm
      · simp only [Except.ok.injEq] at hm
        subst hm
        simp only [List.length_append, List.length_singleton]
        omega
    · simp only [Except.ok.injEq] at hm
      subst hm
      exact hok
  · intro t t' hm hok
    unfold Tape.move_right at hm
    unfold Tape.sizeOk at hok ⊢
    split at hm
    · split at hm
      · simp at hm
      · simp only [Except.ok.injEq] at hm
        subst hm
        simp only [List.length_append, List.length_singleton]
        omega
    · simp only [Except.ok.injEq] at hm
      subst hm
      exact hok
  · intro t
    unfold Tape.move_left
    constructor
    · intro h
      split at h
      · split at h
        · exact ⟨by assumption, by assumption⟩
        · simp at h
      · simp at h
    · rintro ⟨h1, h2⟩
      rw [if_pos h1, if_pos h2]
  · intro t
    unfold Tape.move_right
    constructor
    · intro h
      split at h
      · split at h
        · exact ⟨by assumption, by assumption⟩
        · simp at h
      · simp at h
    · rintro ⟨h1, h2⟩
      rw [if_pos h1, if_pos h2]

/-- Closed instance of `tape_size_invariant`: the size-1 tape satisfies the
invariant, and moving right on it fails with `MaxSizeExceeded`. -/
theorem tape_size_invariant_witness :
    (Tape.new 1).sizeOk ∧ (Tape.new 1).move_right = .error .mk :=
  ⟨tape_size_invariant.1 1 (by decide),
   (tape_size_invariant.2.2.2.2.2.2.2 (Tape.new 1)).mpr (by decide)⟩

/-- C10: a fresh tape already occupies one physical cell (`right = [0]`,
`left = []`, pointer 0), so reading it yields 0 without any move; every
operation keeps `right` nonempty; and `max_size = 0` violates the size cap
already at construction. -/
theorem tape_new_one_cell :
    (∀ ms : Nat, (Tape.new ms).left = [] ∧ (Tape.new ms).right = [0] ∧
      (Tape.new ms).pointer = 0 ∧ (Tape.new ms).read = some 0) ∧
    ¬ (Tape.new 0).sizeOk ∧
    (∀ (t : Tape) (c : Nat) (t' : Tape), t.right ≠ [] → t.write c = some t' →
      t'.right ≠ []) ∧
    (∀ t t' : Tape, t.right ≠ [] → t.increment = some t' → t'.right ≠ []) ∧
    (∀ t t' : Tape, t.right ≠ [] → t.decrement = some t' → t'.right ≠ []) ∧
    (∀ t t' : Tape, t.right ≠ [] → t.move_left = .ok t' → t'.right ≠ []) ∧
    (∀ t t' : Tape, t.right ≠ [] → t.move_right = .ok t' → t'.right ≠ []) := by
  have hlen : ∀ l : List Nat, l ≠ [] ↔ l.length ≠ 0 := by
    intro l
    simp [List.length_eq_zero]
  refine ⟨?_, ?_, ?_, ?_, ?_, ?_, ?_⟩
  · intro ms
    exact ⟨rfl, rfl, rfl, rfl⟩
  · decide
  · intro t c t' hne hw
    obtain ⟨-, h2, -, -⟩ := Tape.write_lengths t c t' hw
    rw [hlen] at hne ⊢
    omega
  · intro t t' hne hw
    obtain ⟨-, h2, -, -⟩ := Tape.increment_lengths t t' hw
    rw [hlen] at hne ⊢
    omega
  · intro t t' hne hw
    obtain ⟨-, h2, -, -⟩ := Tape.decrement_lengths t t' hw
    rw [hlen] at hne ⊢
    omega
  · intro t t' hne hm
    unfold Tape.move_left at hm
    split at hm
    · split at hm
      · exact Except.noConfusion hm
      · simp only [Except.ok.injEq] at hm
        subst hm
        exact hne
    · simp only [Except.ok.injEq] at hm
      subst hm
      exact hne
  · intro t t' hne hm
    unfold Tape.move_right at hm
    split at hm
    · split at hm
      · exact Except.noConfusion hm
      · simp only [Except.ok.injEq] at hm
        subst hm
        simp
    · simp only [Except.ok.injEq] at hm
      subst hm
      exact hne

/-- Closed instance of `tape_new_one_cell`'s preservation clauses on the
fresh size-2 tape. -/
theorem tape_new_one_cell_witness :
    (Tape.new 2).right ≠ [] ∧
    ∀ t' : Tape, (Tape.new 2).move_right = .ok t' → t'.right ≠ [] :=
  ⟨by decide, fun t' h =>
    tape_new_one_cell.2.2.2.2.2.2 (Tape.new 2) t' (by decide) h⟩

/-! ## Bracket matching (C1) -/

/-- Modelled from the spec: "scan forward from the current position
tracking a nesting depth counter (incremented on BeginLoop, decremented on
EndLoop); the depth reaches zero at the matching EndLoop", with an ideal
unbounded signed depth counter.  Returns the offset (relative to the start
of the scanned suffix) at which the depth first returns to zero. -/
def spec_match_close : List Instruction → Int → Option Nat
  | [], _ => none
  | inst :: rest, depth =>
    let depth' := depth + (match inst with
      | .beginLoop => 1
      | .endLoop => -1
      | _ => 0)
    if depth' = 0 then some 0
    else (spec_match_close rest depth').map (fun k => k + 1)

/-- The source's `usize` scan agrees with the ideal signed-depth scan as
long as the counter stays positive (which it does whenever the scan starts
at a `BeginLoop`): no wraparound ever fires. -/
lemma scanClose_eq_spec (l : List Instruction) : ∀ i c : Nat,
    1 ≤ c → c + l.length < 2 ^ 64 →
    scanClose l i c = (spec_match_close l (c : Int)).map (fun k => k + i) := by
  induction l with
  | nil =>
    intro i c h1 h2
    rfl
  | cons inst rest ih =>
    intro i c h1 h2
    simp only [List.length_cons] at h2
    have hioc : ∀ x : Option Nat,
        (x.map (fun k => k + 1)).map (fun k => k + i) =
        x.map (fun k => k + (i + 1)) := by
      intro x
      cases x with
      | none => rfl
      | some k =>
        simp only [Option.map_some']
        congr 1
        omega
    cases inst
    case beginLoop =>
      have hmod : (c + 1) % 2 ^ 64 = c + 1 := Nat.mod_eq_of_lt (by omega)
      simp only [scanClose, spec_match_close, hmod]
      rw [if_neg (by omega), if_neg (by omega)]
      have ih' := ih (i + 1) (c + 1) (by omega) (by omega)
      push_cast at ih'
      rw [ih', hioc]
    case endLoop =>
      have hmod : (c + (2 ^ 64 - 1)) % 2 ^ 64 = c - 1 := by omega
      simp only [scanClose, spec_match_close, hmod]
      by_cases hc : c = 1
      · subst hc
        rw [if_pos (by omega), if_pos (by omega)]
        simp
      · rw [if_neg (by omega), if_neg (by omega)]
        have ih' := ih (i + 1) (c - 1) (by omega) (by omega)
        have hcast : ((c - 1 : Nat) : Int) = (c : Int) + -1 := by omega
        rw [hcast] at ih'
        rw [ih', hioc]
    all_goals
      simp only [scanClose, spec_match_close]
      rw [if_neg (by omega), if_neg (by omega)]
      have ih' := ih (i + 1) c h1 (by omega)
      rw [show (c : Int) + 0 = (c : Int) by omega, ih', hioc]

/-- When the ideal scan (started with positive depth) finds a match, the
instruction at the matched offset is an `EndLoop`. -/
lemma spec_match_close_endLoop (l : List Instruction) : ∀ (d : Int) (j : Nat),
    1 ≤ d → spec_match_close l d = some j →
    ∃ hj : j < l.length, l.get ⟨j, hj⟩ = .endLoop := by
  induction l with
  | nil =>
    intro d j h1 h2
    exact Option.noConfusion h2
  | cons inst rest ih =>
    intro d j h1 h2
    cases inst
    case endLoop =>
      simp only [spec_match_close] at h2
      by_cases hd : d + -1 = 0
      · rw [if_pos hd] at h2
        injection h2 with h2
        subst h2
        exact ⟨by simp, rfl⟩
      · rw [if_neg hd] at h2
        obtain ⟨k, hk, rfl⟩ := Option.map_eq_some'.mp h2
        obtain ⟨hjlt, hget⟩ := ih (d + -1) k (by omega) hk
        refine ⟨by simpa using Nat.succ_lt_succ hjlt, ?_⟩
        simpa [List.get_eq_getElem] using hget
    case beginLoop =>
      simp only [spec_match_close] at h2
      rw [if_neg (by omega)] at h2
      obtain ⟨k, hk, rfl⟩ := Option.map_eq_some'.mp h2
      obtain ⟨hjlt, hget⟩ := ih (d + 1) k (by omega) hk
      refine ⟨by simpa using Nat.succ_lt_succ hjlt, ?_⟩
      simpa [List.get_eq_getElem] using hget
    all_goals
      simp only [spec_match_close] at h2
      rw [if_neg (by omega)] at h2
      obtain ⟨k, hk, rfl⟩ := Option.map_eq_some'.mp h2
      obtain ⟨hjlt, hget⟩ := ih _ k (by omega) hk
      refine ⟨by simpa using Nat.succ_lt_succ hjlt, ?_⟩
      simpa [List.get_eq_getElem] using hget

/-- The scan `execute_command` actually runs (from a `BeginLoop`, counter
started at 0) computes exactly the ideal match position. -/
lemma scanClose_at_beginLoop (src : List Instruction) (pc : Nat)
    (hlen : src.length < 2 ^ 64) (h : pc < src.length)
    (hb : src.get ⟨pc, h⟩ = .beginLoop) :
    scanClose (src.drop pc) 0 0 = spec_match_close (src.drop pc) 0 := by
  have hdrop : src.drop pc = .beginLoop :: src.drop (pc + 1) := by
    rw [List.drop_eq_getElem_cons h]
    congr 1
  rw [hdrop]
  simp only [scanClose, spec_match_close]
  have hmod : (0 + 1) % 2 ^ 64 = 1 := by norm_num
  rw [hmod, if_neg (by omega), if_neg (by omega)]
  have hbound : 1 + (src.drop (pc + 1)).length < 2 ^ 64 := by
    rw [List.length_drop]
    omega
  have := scanClose_eq_spec (src.drop (pc + 1)) 1 1 le_rfl hbound
  rw [this]
  norm_num

/-- C1: decoding a `BeginLoop` with a zero cell sets the program counter
exactly onto the matching `EndLoop` (the position where the nesting depth
first returns to zero) when one exists, and fails with the
mismatched-bracket error ("found no matching closing parenthesis") when
the remainder of the program has no matching `EndLoop`. -/
theorem execute_command_beginLoop_zero (src : List Instruction) (pc : Nat)
    (hlen : src.length < 2 ^ 64) (h : pc < src.length)
    (hb : src.get ⟨pc, h⟩ = .beginLoop) :
    (∀ j, spec_match_close (src.drop pc) 0 = some j →
      Program.execute_command ⟨pc, src⟩ 0 =
        .ok (⟨pc + j, src⟩, .step .beginLoop) ∧
      ∃ hj : pc + j < src.length, src.get ⟨pc + j, hj⟩ = .endLoop) ∧
    (spec_match_close (src.drop pc) 0 = none →
      Program.execute_command ⟨pc, src⟩ 0 =
        .error ⟨"found no matching closing parenthesis"⟩) := by
  have hget : ∀ hp : pc < src.length, src.get ⟨pc, hp⟩ = Instruction.beginLoop :=
    fun _ => hb
  have hscan := scanClose_at_beginLoop src pc hlen h hb
  have hexec : Program.execute_command ⟨pc, src⟩ 0 =
      (match spec_match_close (src.drop pc) 0 with
       | some i => Except.ok (⟨pc + i, src⟩, ProgramStepResult.step .beginLoop)
       | none => Except.error ⟨"found no matching closing parenthesis"⟩) := by
    unfold Program.execute_command
    rw [dif_neg (by omega : ¬ src.length ≤ pc)]
    dsimp only
    rw [hget (Nat.lt_of_not_le (by omega))]
    rw [if_pos rfl, hscan]
    try rfl
  constructor
  · intro j hj
    rw [hexec, hj]
    refine ⟨rfl, ?_⟩
    have hdrop : src.drop pc = .beginLoop :: src.drop (pc + 1) := by
      rw [List.drop_eq_getElem_cons h]
      congr 1
    rw [hdrop] at hj
    simp only [spec_match_close] at hj
    rw [if_neg (by omega)] at hj
    obtain ⟨k, hk, rfl⟩ := Option.map_eq_some'.mp hj
    obtain ⟨hklt, hkget⟩ := spec_match_close_endLoop (src.drop (pc + 1)) 1 k
      (by omega) (by simpa using hk)
    rw [List.length_drop] at hklt
    refine ⟨by omega, ?_⟩
    have : (src.drop (pc + 1)).get ⟨k, by rw [List.length_drop]; omega⟩ =
        src.get ⟨pc + (k + 1), by omega⟩ := by
      simp only [List.get_eq_getElem, List.getElem_drop]
      congr 1
      omega
    rw [← this]
    exact hkget
  · intro hnone
    rw [hexec, hnone]

/-- Closed instance of `execute_command_beginLoop_zero`: `[]` matched at
offset 1, and the single-`[` program fails with mismatched bracket. -/
theorem execute_command_beginLoop_zero_witness :
    (Program.execute_command ⟨0, [.beginLoop, .endLoop]⟩ 0 =
      .ok (⟨0 + 1, [.beginLoop, .endLoop]⟩, .step .beginLoop) ∧
      ∃ hj : 0 + 1 < ([Instruction.beginLoop, .endLoop] : List Instruction).length,
        ([Instruction.beginLoop, .endLoop] : List Instruction).get ⟨0 + 1, hj⟩ =
          .endLoop) ∧
    Program.execute_command ⟨0, [.beginLoop]⟩ 0 =
      .error ⟨"found no matching closing parenthesis"⟩ :=
  ⟨(execute_command_beginLoop_zero [.beginLoop, .endLoop] 0 (by norm_num)
      (by norm_num) rfl).1 1 rfl,
   (execute_command_beginLoop_zero [.beginLoop] 0 (by norm_num)
      (by norm_num) rfl).2 rfl⟩

/-! ## EndLoop decoding (C3) -/

/-- C3 counterexample: decoding the `EndLoop` of the program `]` with a
zero cell reports `Step(BeginLoop)`, not `Step(EndLoop)` (line 112 of
`main.rs`), so the claim that both `EndLoop` branches report `EndLoop` is
false. -/
theorem execute_command_endLoop_zero_reports_beginLoop :
    Program.execute_command ⟨0, [.endLoop]⟩ 0 =
      .ok (⟨1, [.endLoop]⟩, .step .beginLoop) ∧
    ProgramStepResult.step .beginLoop ≠ .step .endLoop :=
  ⟨rfl, by decide⟩

/-- C3 amended: at an `EndLoop`, the nonzero-cell branch reports the
consumed instruction as `EndLoop` (when the backward scan finds a partner;
otherwise it fails with mismatched bracket), but the zero-cell branch
advances by one reporting `BeginLoop`. -/
theorem execute_command_endLoop_report (src : List Instruction) (pc : Nat)
    (h : pc < src.length) (he : src.get ⟨pc, h⟩ = .endLoop) (cell : Nat) :
    (cell = 0 → Program.execute_command ⟨pc, src⟩ cell =
      .ok (⟨pc + 1, src⟩, .step .beginLoop)) ∧
    (cell ≠ 0 →
      Program.execute_command ⟨pc, src⟩ cell =
        .error ⟨"found no matching opening parenthesis"⟩ ∨
      ∃ j, Program.execute_command ⟨pc, src⟩ cell =
        .ok (⟨j, src⟩, .step .endLoop)) := by
  have hget : ∀ hp : pc < src.length, src.get ⟨pc, hp⟩ = Instruction.endLoop :=
    fun _ => he
  constructor
  · rintro rfl
    unfold Program.execute_command
    rw [dif_neg (by omega : ¬ src.length ≤ pc)]
    dsimp only
    rw [hget (Nat.lt_of_not_le (by omega))]
    rfl
  · intro hc
    unfold Program.execute_command
    rw [dif_neg (by omega : ¬ src.length ≤ pc)]
    dsimp only
    rw [hget (Nat.lt_of_not_le (by omega))]
    rw [if_pos hc]
    cases hso : scanOpen ((src.take (pc + 1)).reverse) pc 0 with
    | none =>
      left
      rfl
    | some j =>
      right
      exact ⟨j, rfl⟩

/-- Closed instance of `execute_command_endLoop_report` on the program `]`
with cell values 0 and 1. -/
theorem execute_command_endLoop_report_witness :
    Program.execute_command ⟨0, [.endLoop]⟩ 0 =
      .ok (⟨0 + 1, [.endLoop]⟩, .step .beginLoop) ∧
    (Program.execute_command ⟨0, [.endLoop]⟩ 1 =
        .error ⟨"found no matching opening parenthesis"⟩ ∨
      ∃ j, Program.execute_command ⟨0, [.endLoop]⟩ 1 =
        .ok (⟨j, [.endLoop]⟩, .step .endLoop)) :=
  ⟨(execute_command_endLoop_report [.endLoop] 0 (by norm_num) rfl 0).1 rfl,
   (execute_command_endLoop_report [.endLoop] 0 (by norm_num) rfl 1).2
     (by norm_num)⟩

/-! ## Concrete capabilities and end-to-end scenarios (C2, C7, C9) -/

/-- Byte-recording output capability with a zero-supplying input, over the
world of recorded output bytes. -/
def recordingCaps : IoCaps (List Nat) :=
  { input := fun w => .ok (0, w), output := fun b w => .ok (w ++ [b]) }

/-- The capabilities `main` builds when stdin is at end-of-stream: every
`read_exact` reports `UnexpectedEof`, which `stdin_capability` normalizes;
output records the byte. -/
def eofCaps : IoCaps (List Nat) :=
  { input := fun w =>
      match stdin_capability .unexpectedEof with
      | .ok b => .ok (b, w)
      | .error e => .error e
    output := fun b w => .ok (w ++ [b]) }

/-- C2 counterexample: the program `+[-]` terminates with a total step
count of 4 (Increment, BeginLoop-enter, Decrement, EndLoop-exit are all
counted), not 3 as claimed. -/
theorem run_plus_loop_counterexample :
    Runner.run recordingCaps 10 (Runner.new 30000 "+[-]") [] =
      .terminate ⟨⟨[], [0], 0, 30000⟩,
        ⟨4, [.increment, .beginLoop, .decrement, .endLoop]⟩, 4, none⟩ [] ∧
    (4 : Nat) ≠ 3 :=
  ⟨rfl, by decide⟩

/-- C2 amended: with any capabilities, any world and any configured
maximum size, `+[-]` terminates after exactly 4 counted steps with the
current cell back at 0 (the final tape is the one-cell tape holding 0). -/
theorem run_plus_loop (W : Type) (caps : IoCaps W) (w : W) (ms : Nat) :
    Runner.run caps 5 (Runner.new ms "+[-]") w =
      .terminate ⟨⟨[], [0], 0, ms⟩,
        ⟨4, [.increment, .beginLoop, .decrement, .endLoop]⟩, 4, none⟩ w ∧
    (Tape.mk [] [0] 0 ms).val = some 0 :=
  ⟨rfl, rfl⟩

/-- C7: the input capability maps a genuine end-of-stream to the
successful byte 0 (not an error), and running `,.` against an
end-of-stream input records exactly the output `[0]`. -/
theorem input_eof_normalized_to_zero :
    stdin_capability .unexpectedEof = .ok 0 ∧
    Runner.run eofCaps 5 (Runner.new 30000 ",.") [] =
      .terminate ⟨⟨[], [0], 0, 30000⟩, ⟨2, [.input, .output]⟩, 2, none⟩ [0] :=
  ⟨rfl, rfl⟩

/-- C9 counterexample: when `run` fails inside `run_for`, the `?` operator
skips the `self.next_halt = None` line, so the returned runner still
carries the stale threshold `some 5` — the claim that the threshold is
cleared whether run succeeded or failed is false. -/
theorem run_for_stale_halt_counterexample :
    Runner.run_for recordingCaps 10 5 (Runner.new 1 ">") [] =
      .fail ⟨⟨[], [0], 0, 1⟩, ⟨1, [.right]⟩, 0, some 5⟩ [] 0 (.size .mk) ∧
    (some 5 : Option Nat) ≠ none :=
  ⟨rfl, by decide⟩

/-! ## Runner step bookkeeping -/

/-- `{ s with next_halt := hv }` as a function: the only field `run_for`
touches around its delegation to `run`. -/
def Runner.setHalt (s : Runner) (hv : Option Nat) : Runner :=
  { s with next_halt := hv }

lemma Runner.step_next_halt_step {W : Type} {caps : IoCaps W} {s : Runner} {w : W}
    {s' : Runner} {w' : W} {i : Instruction}
    (h : Runner.step caps s w = .step s' w' i) :
    s'.next_halt = s.next_halt ∧ s'.step_count = s.step_count + 1 := by
  unfold Runner.step at h
  repeat' split at h
  all_goals cases h
  all_goals simp

lemma Runner.step_next_halt_fail {W : Type} {caps : IoCaps W} {s : Runner} {w : W}
    {s' : Runner} {w' : W} {e : RunError}
    (h : Runner.step caps s w = .fail s' w' e) :
    s'.next_halt = s.next_halt ∧ s'.step_count = s.step_count := by
  unfold Runner.step at h
  repeat' split at h
  all_goals cases h
  all_goals simp

lemma Runner.step_next_halt_terminate {W : Type} {caps : IoCaps W} {s : Runner} {w : W}
    {s' : Runner} {w' : W}
    (h : Runner.step caps s w = .terminate s' w') :
    s'.next_halt = s.next_halt ∧ s'.step_count = s.step_count := by
  unfold Runner.step at h
  repeat' split at h
  all_goals cases h
  all_goals simp

/-- `Runner::step` never reads `next_halt`: running it from the same state
with a different threshold gives the same outcome, up to that field. -/
lemma Runner.step_setHalt_eq {W : Type} (caps : IoCaps W) (s : Runner) (w : W)
    (hv : Option Nat) :
    Runner.step caps (s.setHalt hv) w =
      match Runner.step caps s w with
      | .panicked => .panicked
      | .fail s' w' e => .fail (s'.setHalt hv) w' e
      | .step s' w' i => .step (s'.setHalt hv) w' i
      | .terminate s' w' => .terminate (s'.setHalt hv) w' := by
  show Runner.step caps (s.setHalt hv) w = _
  conv_lhs => unfold Runner.step Runner.setHalt
  conv_rhs => rw [Runner.step]
  dsimp only
  repeat' split
  all_goals try simp_all [Runner.setHalt]
  all_goals casesm* _ ∧ _
  all_goals subst_vars
  all_goals simp

lemma Runner.setHalt_none_self {s : Runner} (h : s.next_halt = none) :
    s.setHalt none = s := by
  cases s
  simp_all [Runner.setHalt]

lemma Runner.setHalt_setHalt (s : Runner) (a b : Option Nat) :
    (s.setHalt a).setHalt b = s.setHalt b := rfl

lemma Runner.stepN_fields {W : Type} (caps : IoCaps W) :
    ∀ (n : Nat) (s : Runner) (w : W) (sn : Runner) (wn : W),
    Runner.stepN caps n s w = some (sn, wn) →
    sn.next_halt = s.next_halt ∧ sn.step_count = s.step_count + n := by
  intro n
  induction n with
  | zero =>
    intro s w sn wn h
    injection h with h
    injection h with h1 h2
    subst h1
    subst h2
    exact ⟨rfl, rfl⟩
  | succ n ih =>
    intro s w sn wn h
    unfold Runner.stepN at h
    cases hstep : Runner.step caps s w with
    | step s1 w1 i =>
      rw [hstep] at h
      obtain ⟨h1, h2⟩ := Runner.step_next_halt_step hstep
      obtain ⟨h3, h4⟩ := ih s1 w1 sn wn h
      constructor
      · rw [h3, h1]
      · omega
    | panicked => rw [hstep] at h; exact Option.noConfusion h
    | fail s1 w1 e => rw [hstep] at h; exact Option.noConfusion h
    | terminate s1 w1 => rw [hstep] at h; exact Option.noConfusion h

lemma Runner.stepN_split {W : Type} (caps : IoCaps W) :
    ∀ (a b : Nat) (s : Runner) (w : W) (sn : Runner) (wn : W),
    Runner.stepN caps (a + b) s w = some (sn, wn) →
    ∃ sa wa, Runner.stepN caps a s w = some (sa, wa) ∧
      Runner.stepN caps b sa wa = some (sn, wn) := by
  intro a
  induction a with
  | zero =>
    intro b s w sn wn h
    exact ⟨s, w, rfl, by simpa using h⟩
  | succ a ih =>
    intro b s w sn wn h
    have hab : a + 1 + b = (a + b) + 1 := by omega
    rw [hab] at h
    unfold Runner.stepN at h
    cases hstep : Runner.step caps s w with
    | step s1 w1 i =>
      rw [hstep] at h
      obtain ⟨sa, wa, h1, h2⟩ := ih b s1 w1 sn wn h
      refine ⟨sa, wa, ?_, h2⟩
      show (match Runner.step caps s w with
        | .step s' w' _ => Runner.stepN caps a s' w'
        | _ => none) = some (sa, wa)
      rw [hstep]
      exact h1
    | panicked => rw [hstep] at h; exact Option.noConfusion h
    | fail s1 w1 e => rw [hstep] at h; exact Option.noConfusion h
    | terminate s1 w1 => rw [hstep] at h; exact Option.noConfusion h

/-- A failing `runAux` reports in `n` exactly the number of successful
steps taken since iteration count `j`: the step trace of length `n - j`
succeeds and the next step is the failing one. -/
lemma Runner.runAux_fail {W : Type} (caps : IoCaps W) :
    ∀ (fuel : Nat) (s : Runner) (w : W) (j : Nat) (s' : Runner) (w' : W)
      (n : Nat) (e : RunError),
    Runner.runAux caps fuel s w j = .fail s' w' n e →
    j ≤ n ∧ ∃ sn wn, Runner.stepN caps (n - j) s w = some (sn, wn) ∧
      Runner.step caps sn wn = .fail s' w' e := by
  intro fuel
  induction fuel with
  | zero =>
    intro s w j s' w' n e h
    exact RunOut.noConfusion h
  | succ fuel ih =>
    intro s w j s' w' n e h
    unfold Runner.runAux at h
    split at h
    · exact RunOut.noConfusion h
    · cases hstep : Runner.step caps s w with
      | panicked => rw [hstep] at h; exact RunOut.noConfusion h
      | terminate s1 w1 => rw [hstep] at h; exact RunOut.noConfusion h
      | fail s1 w1 e1 =>
        rw [hstep] at h
        injection h with h1 h2 h3 h4
        subst h1
        subst h2
        subst h3
        subst h4
        refine ⟨le_refl j, s, w, ?_, hstep⟩
        rw [Nat.sub_self]
        rfl
      | step s1 w1 i =>
        rw [hstep] at h
        obtain ⟨hle, sn, wn, hN, hfail⟩ := ih s1 w1 (j + 1) s' w' n e h
        refine ⟨by omega, sn, wn, ?_, hfail⟩
        have hnj : n - j = (n - (j + 1)) + 1 := by omega
        rw [hnj]
        show (match Runner.step caps s w with
          | .step s2 w2 _ => Runner.stepN caps (n - (j + 1)) s2 w2
          | _ => none) = some (sn, wn)
        rw [hstep]
        exact hN

/-- A terminating `runAux` from an un-thresholded state is exactly a
successful step trace followed by a terminating decode. -/
lemma Runner.runAux_terminate_trace {W : Type} (caps : IoCaps W) :
    ∀ (fuel : Nat) (s : Runner) (w : W) (j : Nat) (sf : Runner) (wf : W),
    s.next_halt = none →
    Runner.runAux caps fuel s w j = .terminate sf wf →
    ∃ N, N + 1 ≤ fuel ∧ ∃ sn wn, Runner.stepN caps N s w = some (sn, wn) ∧
      Runner.step caps sn wn = .terminate sf wf := by
  intro fuel
  induction fuel with
  | zero =>
    intro s w j sf wf hnone h
    exact RunOut.noConfusion h
  | succ fuel ih =>
    intro s w j sf wf hnone h
    unfold Runner.runAux at h
    rw [show Runner.haltCheck s = false by simp [Runner.haltCheck, hnone]] at h
    simp only [Bool.false_eq_true, if_false] at h
    cases hstep : Runner.step caps s w with
    | panicked => rw [hstep] at h; exact RunOut.noConfusion h
    | fail s1 w1 e1 => rw [hstep] at h; exact RunOut.noConfusion h
    | terminate s1 w1 =>
      rw [hstep] at h
      injection h with h1 h2
      subst h1
      subst h2
      exact ⟨0, by omega, s, w, rfl, hstep⟩
    | step s1 w1 i =>
      rw [hstep] at h
      have hnone1 : s1.next_halt = none :=
        (Runner.step_next_halt_step hstep).1.trans hnone
      obtain ⟨N, hNf, sn, wn, hN, hterm⟩ := ih s1 w1 (j + 1) sf wf hnone1 h
      refine ⟨N + 1, by omega, sn, wn, ?_, hterm⟩
      show (match Runner.step caps s w with
        | .step s2 w2 _ => Runner.stepN caps N s2 w2
        | _ => none) = some (sn, wn)
      rw [hstep]
      exact hN

/-- How `run` behaves when a halt threshold `hp` is installed on a state
whose un-thresholded trace terminates after `N` steps: it terminates
identically when the threshold is beyond the trace, pauses exactly at the
threshold when the threshold falls inside the trace, and pauses
immediately when the threshold is already reached. -/
lemma Runner.runAux_halt_of_trace {W : Type} (caps : IoCaps W) :
    ∀ (N : Nat) (s : Runner) (w : W) (sn : Runner) (wn : W) (sf : Runner) (wf : W)
      (hp fuel j : Nat),
    s.next_halt = none →
    Runner.stepN caps N s w = some (sn, wn) →
    Runner.step caps sn wn = .terminate sf wf →
    N < fuel →
    (s.step_count + N < hp →
      Runner.runAux caps fuel (s.setHalt (some hp)) w j =
        .terminate (sf.setHalt (some hp)) wf) ∧
    (s.step_count < hp → hp ≤ s.step_count + N →
      ∃ sm wm, Runner.stepN caps (hp - s.step_count) s w = some (sm, wm) ∧
        Runner.runAux caps fuel (s.setHalt (some hp)) w j =
          .stepCount (sm.setHalt (some hp)) wm (j + (hp - s.step_count))) ∧
    (hp ≤ s.step_count →
      Runner.runAux caps fuel (s.setHalt (some hp)) w j =
        .stepCount (s.setHalt (some hp)) w j) := by
  intro N
  induction N with
  | zero =>
    intro s w sn wn sf wf hp fuel j hnone hN hterm hfuel
    cases fuel with
    | zero => omega
    | succ fuel =>
      injection hN with hN
      injection hN with h1 h2
      subst h1
      subst h2
      refine ⟨?_, ?_, ?_⟩
      · intro hlt
        unfold Runner.runAux
        rw [if_neg (by simp [Runner.haltCheck, Runner.setHalt]; omega)]
        rw [Runner.step_setHalt_eq, hterm]
      · intro h1 h2
        omega
      · intro hle
        unfold Runner.runAux
        rw [if_pos (by simp [Runner.haltCheck, Runner.setHalt]; omega)]
  | succ N ih =>
    intro s w sn wn sf wf hp fuel j hnone hN hterm hfuel
    cases fuel with
    | zero => omega
    | succ fuel =>
      unfold Runner.stepN at hN
      cases hstep : Runner.step caps s w with
      | panicked => rw [hstep] at hN; exact Option.noConfusion hN
      | fail s1 w1 e => rw [hstep] at hN; exact Option.noConfusion hN
      | terminate s1 w1 => rw [hstep] at hN; exact Option.noConfusion hN
      | step s1 w1 i =>
        rw [hstep] at hN
        obtain ⟨hnone1, hcount1⟩ := Runner.step_next_halt_step hstep
        have hnone1' : s1.next_halt = none := hnone1.trans hnone
        refine ⟨?_, ?_, ?_⟩
        · intro hlt
          unfold Runner.runAux
          rw [if_neg (by simp [Runner.haltCheck, Runner.setHalt]; omega)]
          rw [Runner.step_setHalt_eq, hstep]
          dsimp only
          exact (ih s1 w1 sn wn sf wf hp fuel (j + 1) hnone1' hN hterm
            (by omega)).1 (by omega)
        · intro h1 h2
          by_cases hcase : hp ≤ s.step_count + 1
          · have hp1 : hp = s.step_count + 1 := by omega
            refine ⟨s1, w1, ?_, ?_⟩
            · rw [show hp - s.step_count = 1 by omega]
              show (match Runner.step caps s w with
                | .step s2 w2 _ => Runner.stepN caps 0 s2 w2
                | _ => none) = some (s1, w1)
              rw [hstep]
              rfl
            · unfold Runner.runAux
              rw [if_neg (by simp [Runner.haltCheck, Runner.setHalt]; omega)]
              rw [Runner.step_setHalt_eq, hstep]
              dsimp only
              have := (ih s1 w1 sn wn sf wf hp fuel (j + 1) hnone1' hN hterm
                (by omega)).2.2 (by omega)
              rw [this, show hp - s.step_count = 1 by omega]
          · obtain ⟨sm, wm, hm, hrun⟩ :=
              (ih s1 w1 sn wn sf wf hp fuel (j + 1) hnone1' hN hterm
                (by omega)).2.1 (by omega) (by omega)
            refine ⟨sm, wm, ?_, ?_⟩
            · rw [show hp - s.step_count = (hp - s1.step_count) + 1 by omega]
              show (match Runner.step caps s w with
                | .step s2 w2 _ => Runner.stepN caps (hp - s1.step_count) s2 w2
                | _ => none) = some (sm, wm)
              rw [hstep]
              exact hm
            · unfold Runner.runAux
              rw [if_neg (by simp [Runner.haltCheck, Runner.setHalt]; omega)]
              rw [Runner.step_setHalt_eq, hstep]
              dsimp only
              rw [hrun]
              congr 1
              omega
        · intro hle
          unfold Runner.runAux
          rw [if_pos (by simp [Runner.haltCheck, Runner.setHalt]; omega)]

/-- `run_for k` on an un-thresholded state whose trace terminates in `N`
steps: it terminates identically when `N < k`, and otherwise pauses after
exactly `k` steps with the threshold cleared again. -/
lemma Runner.run_for_of_trace {W : Type} (caps : IoCaps W)
    (N : Nat) (s : Runner) (w : W) (sn : Runner) (wn : W) (sf : Runner) (wf : W)
    (k fuel : Nat)
    (hnone : s.next_halt = none)
    (hN : Runner.stepN caps N s w = some (sn, wn))
    (hterm : Runner.step caps sn wn = .terminate sf wf)
    (hfuel : N < fuel) (hk : 1 ≤ k) :
    (N < k → Runner.run_for caps fuel k s w = .terminate sf wf) ∧
    (k ≤ N → ∃ sk wk, Runner.stepN caps k s w = some (sk, wk) ∧
      sk.next_halt = none ∧
      Runner.run_for caps fuel k s w = .stepCount sk wk k) := by
  have hmain := Runner.runAux_halt_of_trace caps N s w sn wn sf wf
    (s.step_count + k) fuel 0 hnone hN hterm hfuel
  have hsfnone : sf.next_halt = none := by
    have h1 := (Runner.stepN_fields caps N s w sn wn hN).1
    have h2 := (Runner.step_next_halt_terminate hterm).1
    rw [h2, h1, hnone]
  constructor
  · intro hNk
    have h1 : Runner.run caps fuel
        ({ s with next_halt := some (s.step_count + k) }) w =
        .terminate (sf.setHalt (some (s.step_count + k))) wf :=
      hmain.1 (by omega)
    unfold Runner.run_for
    rw [h1]
    show RunOut.terminate (sf.setHalt none) wf = RunOut.terminate sf wf
    rw [Runner.setHalt_none_self hsfnone]
  · intro hkN
    obtain ⟨sm, wm, hm, hrun⟩ := hmain.2.1 (by omega) (by omega)
    rw [show s.step_count + k - s.step_count = k by omega] at hm hrun
    have hmnone : sm.next_halt = none := by
      rw [(Runner.stepN_fields caps k s w sm wm hm).1, hnone]
    refine ⟨sm, wm, hm, hmnone, ?_⟩
    have h1 : Runner.run caps fuel
        ({ s with next_halt := some (s.step_count + k) }) w =
        .stepCount (sm.setHalt (some (s.step_count + k))) wm (0 + k) := hrun
    unfold Runner.run_for
    rw [h1]
    show RunOut.stepCount (sm.setHalt none) wm (0 + k) = RunOut.stepCount sm wm k
    rw [Runner.setHalt_none_self hmnone, Nat.zero_add]

/-- Iterating `run_for k` reaches exactly the terminal state of the
underlying step trace. -/
lemma Runner.run_for_loop_of_trace {W : Type} (caps : IoCaps W) (fuel k : Nat)
    (hk : 1 ≤ k) :
    ∀ N (s : Runner) (w : W) (sn : Runner) (wn : W) (sf : Runner) (wf : W),
    s.next_halt = none →
    Runner.stepN caps N s w = some (sn, wn) →
    Runner.step caps sn wn = .terminate sf wf →
    N < fuel →
    ∃ m, Runner.run_for_loop caps fuel k m s w = .terminate sf wf := by
  intro N
  induction N using Nat.strong_induction_on with
  | _ N ih =>
    intro s w sn wn sf wf hnone hN hterm hfuel
    have htr := Runner.run_for_of_trace caps N s w sn wn sf wf k fuel
      hnone hN hterm hfuel hk
    by_cases hNk : N < k
    · refine ⟨1, ?_⟩
      unfold Runner.run_for_loop
      rw [htr.1 hNk]
    · push_neg at hNk
      obtain ⟨sk, wk, hsk, hsknone, hrunfor⟩ := htr.2 hNk
      obtain ⟨sa, wa, h1, h2⟩ := Runner.stepN_split caps k (N - k) s w sn wn
        (by rw [show k + (N - k) = N by omega]; exact hN)
      rw [h1] at hsk
      injection hsk with hsk
      injection hsk with e1 e2
      subst e1
      subst e2
      obtain ⟨m, hm⟩ := ih (N - k) (by omega) sa wa sn wn sf wf hsknone h2
        hterm (by omega)
      refine ⟨m + 1, ?_⟩
      unfold Runner.run_for_loop
      rw [hrunfor]
      exact hm

/-- C4: when a `run()` call terminates the program, repeatedly calling
`run_for k` (any fixed quantum `k ≥ 1`) from an identically constructed
runner reaches `Terminate` with exactly the same final runner state (tape,
pointer, program counter, step count) and the same external world. -/
theorem run_for_repeated_eq_run {W : Type} (caps : IoCaps W) (k fuel : Nat)
    (s : Runner) (w : W) (sf : Runner) (wf : W)
    (hk : 1 ≤ k) (hnone : s.next_halt = none)
    (hrun : Runner.run caps fuel s w = .terminate sf wf) :
    ∃ m, Runner.run_for_loop caps fuel k m s w = .terminate sf wf := by
  obtain ⟨N, hNf, sn, wn, hN, hterm⟩ :=
    Runner.runAux_terminate_trace caps fuel s w 0 sf wf hnone hrun
  exact Runner.run_for_loop_of_trace caps fuel k hk N s w sn wn sf wf
    hnone hN hterm (by omega)

/-- Closed instance of `run_for_repeated_eq_run`: driving `+[-]` with
quantum 1 reaches the same terminal state as the single `run()`. -/
theorem run_for_repeated_eq_run_witness :
    ∃ m, Runner.run_for_loop recordingCaps 10 1 m (Runner.new 30000 "+[-]") [] =
      .terminate ⟨⟨[], [0], 0, 30000⟩,
        ⟨4, [.increment, .beginLoop, .decrement, .endLoop]⟩, 4, none⟩ [] :=
  run_for_repeated_eq_run recordingCaps 1 10 (Runner.new 30000 "+[-]") []
    ⟨⟨[], [0], 0, 30000⟩, ⟨4, [.increment, .beginLoop, .decrement, .endLoop]⟩,
      4, none⟩ [] (by decide) rfl rfl

/-- C6: when `run` (or `run_for`) fails, the count `n` paired with the
error is exactly the number of steps successfully completed in that call:
`n` steps succeed from the state the call started stepping from, and the
very next step is the failing one. -/
theorem run_fail_reports_completed_steps {W : Type} (caps : IoCaps W)
    (fuel : Nat) (s : Runner) (w : W) (s' : Runner) (w' : W) (n : Nat)
    (e : RunError) (k : Nat) :
    (Runner.run caps fuel s w = .fail s' w' n e →
      ∃ sn wn, Runner.stepN caps n s w = some (sn, wn) ∧
        Runner.step caps sn wn = .fail s' w' e) ∧
    (Runner.run_for caps fuel k s w = .fail s' w' n e →
      ∃ sn wn, Runner.stepN caps n (s.setHalt (some (s.step_count + k))) w =
          some (sn, wn) ∧
        Runner.step caps sn wn = .fail s' w' e) := by
  constructor
  · intro h
    obtain ⟨-, sn, wn, hN, hf⟩ := Runner.runAux_fail caps fuel s w 0 s' w' n e h
    rw [Nat.sub_zero] at hN
    exact ⟨sn, wn, hN, hf⟩
  · intro h
    unfold Runner.run_for at h
    cases hr : Runner.run caps fuel
        ({ s with next_halt := some (s.step_count + k) }) w with
    | panicked => rw [hr] at h; exact RunOut.noConfusion h
    | fuelOut => rw [hr] at h; exact RunOut.noConfusion h
    | stepCount s1 w1 n1 => rw [hr] at h; exact RunOut.noConfusion h
    | terminate s1 w1 => rw [hr] at h; exact RunOut.noConfusion h
    | fail s1 w1 n1 e1 =>
      rw [hr] at h
      injection h with h1 h2 h3 h4
      subst h1
      subst h2
      subst h3
      subst h4
      obtain ⟨-, sn, wn, hN, hf⟩ := Runner.runAux_fail caps fuel
        (s.setHalt (some (s.step_count + k))) w 0 _ _ _ _ hr
      rw [Nat.sub_zero] at hN
      exact ⟨sn, wn, hN, hf⟩

/-- Closed instance of `run_fail_reports_completed_steps`: on tape cap 1
the program `>` fails immediately, with 0 completed steps. -/
theorem run_fail_reports_completed_steps_witness :
    ∃ sn wn, Runner.stepN recordingCaps 0 (Runner.new 1 ">") [] = some (sn, wn) ∧
      Runner.step recordingCaps sn wn =
        .fail ⟨⟨[], [0], 0, 1⟩, ⟨1, [.right]⟩, 0, none⟩ [] (.size .mk) :=
  (run_fail_reports_completed_steps recordingCaps 10 (Runner.new 1 ">") []
    ⟨⟨[], [0], 0, 1⟩, ⟨1, [.right]⟩, 0, none⟩ [] 0 (.size .mk) 0).1 rfl

/-- C9 amended: `run_for` installs the threshold `current_total + steps`
and delegates to `run`; on the success paths (`StepCount` and `Terminate`)
the returned runner has the threshold cleared, but on the failure path the
early return skips the clearing and the stale threshold remains. -/
theorem run_for_threshold_behavior {W : Type} (caps : IoCaps W)
    (fuel steps : Nat) (s : Runner) (w : W) :
    (∀ s' w' n, Runner.run_for caps fuel steps s w = .stepCount s' w' n →
      s'.next_halt = none) ∧
    (∀ s' w', Runner.run_for caps fuel steps s w = .terminate s' w' →
      s'.next_halt = none) ∧
    (∀ s' w' n e, Runner.run_for caps fuel steps s w = .fail s' w' n e →
      s'.next_halt = some (s.step_count + steps)) := by
  refine ⟨?_, ?_, ?_⟩
  · intro s' w' n h
    unfold Runner.run_for at h
    cases hr : Runner.run caps fuel
        ({ s with next_halt := some (s.step_count + steps) }) w with
    | panicked => rw [hr] at h; exact RunOut.noConfusion h
    | fuelOut => rw [hr] at h; exact RunOut.noConfusion h
    | terminate s1 w1 => rw [hr] at h; exact RunOut.noConfusion h
    | fail s1 w1 n1 e1 => rw [hr] at h; exact RunOut.noConfusion h
    | stepCount s1 w1 n1 =>
      rw [hr] at h
      injection h with h1 h2 h3
      subst h1
      rfl
  · intro s' w' h
    unfold Runner.run_for at h
    cases hr : Runner.run caps fuel
        ({ s with next_halt := some (s.step_count + steps) }) w with
    | panicked => rw [hr] at h; exact RunOut.noConfusion h
    | fuelOut => rw [hr] at h; exact RunOut.noConfusion h
    | stepCount s1 w1 n1 => rw [hr] at h; exact RunOut.noConfusion h
    | fail s1 w1 n1 e1 => rw [hr] at h; exact RunOut.noConfusion h
    | terminate s1 w1 =>
      rw [hr] at h
      injection h with h1 h2
      subst h1
      rfl
  · intro s' w' n e h
    unfold Runner.run_for at h
    cases hr : Runner.run caps fuel
        ({ s with next_halt := some (s.step_count + steps) }) w with
    | panicked => rw [hr] at h; exact RunOut.noConfusion h
    | fuelOut => rw [hr] at h; exact RunOut.noConfusion h
    | stepCount s1 w1 n1 => rw [hr] at h; exact RunOut.noConfusion h
    | terminate s1 w1 => rw [hr] at h; exact RunOut.noConfusion h
    | fail s1 w1 n1 e1 =>
      rw [hr] at h
      injection h with h1 h2 h3 h4
      subst h1
      obtain ⟨-, sn, wn, hN, hf⟩ := Runner.runAux_fail caps fuel
        (s.setHalt (some (s.step_count + steps))) w 0 _ _ _ _ hr
      have h5 := (Runner.step_next_halt_fail hf).1
      have h6 := (Runner.stepN_fields caps _ _ _ _ _ hN).1
      rw [h5, h6]
      rfl

/-- Closed instance of `run_for_threshold_behavior`: the stale threshold
left by the failing `run_for` on `>` with tape cap 1. -/
theorem run_for_threshold_behavior_witness :
    (⟨⟨[], [0], 0, 1⟩, ⟨1, [.right]⟩, 0, some 5⟩ : Runner).next_halt =
      some ((Runner.new 1 ">").step_count + 5) :=
  (run_for_threshold_behavior recordingCaps 10 5 (Runner.new 1 ">") []).2.2
    ⟨⟨[], [0], 0, 1⟩, ⟨1, [.right]⟩, 0, some 5⟩ [] 0 (.size .mk) rfl
